import Mathlib

/-!
Verification development for the PDFRaven password-recovery engine
(`pdfraven/generators.py`, `pdfraven/cracker.py`, `pdfraven/database.py`,
`pdfraven/config.py`).

Python strings are modelled as `List Char` (`Str`).  File input is modelled
at the I/O boundary: a wordlist is the list of its lines (each line as the
Python line iterator delivers it), a session file is an optional parse
result.  Machine integers do not occur (Python integers are unbounded and
every quantity here is a nonnegative count), so `Nat` is used throughout.
-/

/-- Python strings, modelled as lists of characters. -/
abbrev Str := List Char

/-- Coercion from Lean string literals to the `Str` model. -/
def toStr (s : String) : Str := s.toList

/-- Python truthiness of an optional string (`bool(x)` for `x : str | None`):
`None` and the empty string are falsy. -/
def truthyOpt : Option Str → Bool
  | none => false
  | some s => !s.isEmpty

/-- The ASCII whitespace characters removed by Python `str.strip()`
(space, tab, newline, carriage return, vertical tab, form feed).
`str.strip()` also strips other Unicode whitespace; the candidates and
session cursors of this program are ASCII, so the ASCII set is modelled. -/
def isPySpace (c : Char) : Bool :=
  c == ' ' || c == '\t' || c == '\n' || c == '\r' ||
  c == Char.ofNat 11 || c == Char.ofNat 12

/-- Python `str.strip()`: remove leading and trailing whitespace. -/
def pstrip (s : Str) : Str :=
  ((s.dropWhile isPySpace).reverse.dropWhile isPySpace).reverse

/-- Skip every element up to and including the first occurrence of `x`;
if `x` never occurs, the result is empty.  This is the observable effect of
the resume loops `if resuming: (if password == start_after: resuming = False);
continue` in `generators.py`. -/
def dropThrough (x : Str) : List Str → List Str
  | [] => []
  | a :: t => if a = x then t else dropThrough x t

/-- The shared resume wrapper of the mask generator (`gen_from_mask`,
`generators.py` lines 193-203): `resuming = bool(start_after)`, then every
candidate is skipped until one equals `start_after` (which is also skipped).
A falsy `start_after` (`None` or `""`) disables skipping entirely. -/
def resumeSkip (sa : Option Str) (xs : List Str) : List Str :=
  match sa with
  | none => xs
  | some x => if x = [] then xs else dropThrough x xs

/-! ### Decimal numerals

`str(i)` and `f"{i:0{width}d}"` for nonnegative `i`, and `int(s)` on digit
strings, as used by `gen_custom_query`. -/

/-- Fuel-driven construction of the decimal digits of `n` (least fuel that
is always enough is the number of digits; `natStr` supplies `n + 1`). -/
def natStrAux : Nat → Nat → Str
  | 0, _ => []
  | fuel + 1, n =>
    if n < 10 then [Nat.digitChar n]
    else natStrAux fuel (n / 10) ++ [Nat.digitChar (n % 10)]

/-- Python `str(i)` for a nonnegative integer `i`. -/
def natStr (n : Nat) : Str := natStrAux (n + 1) n

/-- Python `f"{i:0{width}d}"` for nonnegative `i`: left-pad the decimal
representation with zeros up to `width` (no truncation). -/
def padTo (width : Nat) (ds : Str) : Str :=
  List.replicate (width - ds.length) '0' ++ ds

/-- Python `int(s)` on a string of decimal digits. -/
def digitsToNat (s : Str) : Nat :=
  s.foldl (fun a c => 10 * a + (c.toNat - 48)) 0

/-- The leftmost maximal run of decimal digits in `s`
(Python `re.search(r'\d+', s)`), or `none` when `s` has no digit. -/
def firstDigitRun (s : Str) : Option Str :=
  let rest := s.dropWhile (fun c => !c.isDigit)
  if rest.isEmpty then none else some (rest.takeWhile Char.isDigit)

/-! ### Character sets (`pdfraven/config.py`) -/

def LOWERCASE : Str := toStr "abcdefghijklmnopqrstuvwxyz"

def UPPERCASE : Str := toStr "ABCDEFGHIJKLMNOPQRSTUVWXYZ"

def DIGITS : Str := toStr "0123456789"

/-- The `SYMBOLS` line of `config.py` is not a valid Python string literal
(the double quote in the middle is unescaped, so the line as written is a
syntax error).  Modelled as the evidently intended character sequence
`!@#$%^&*()-_+=~` backtick `[]{}|` backslash `:;` double-quote quote
`<>,.?/`; no claim depends on the exact membership of this set. -/
def SYMBOLS : Str :=
  toStr "!@#$%^&*()-_+=~" ++ [Char.ofNat 96] ++ toStr "[]{}|" ++
  [Char.ofNat 92] ++ toStr ":;" ++ [Char.ofNat 34, Char.ofNat 39] ++
  toStr "<>,.?/"

def WHITESPACE : Str := toStr " "

def HEXCS : Str := toStr "0123456789abcdef"

/-- `CHARSET_MAP` of `config.py` as a partial map from mask tokens. -/
def CHARSET_MAP (c : Char) : Option Str :=
  if c = 'w' then some LOWERCASE
  else if c = 'W' then some UPPERCASE
  else if c = 'd' then some DIGITS
  else if c = 's' then some SYMBOLS
  else if c = 'b' then some WHITESPACE
  else if c = 'h' then some HEXCS
  else if c = 'a' then some (LOWERCASE ++ UPPERCASE ++ DIGITS ++ SYMBOLS ++ WHITESPACE)
  else none

/-! ### Python exceptions -/

/-- The Python exception kinds that the modelled code can raise. -/
inductive PyErr where
  | valueError
  | typeError
  | keyError
  | attributeError
  deriving DecidableEq, Repr

/-- Decidable equality of `Except` results, for evaluating the models on
concrete inputs. -/
instance {ε α : Type} [DecidableEq ε] [DecidableEq α] : DecidableEq (Except ε α) :=
  fun a b =>
    match a, b with
    | .error e, .error e' =>
      if h : e = e' then .isTrue (h ▸ rfl) else .isFalse (by simp [h])
    | .error _, .ok _ => .isFalse (by simp)
    | .ok _, .error _ => .isFalse (by simp)
    | .ok x, .ok y =>
      if h : x = y then .isTrue (h ▸ rfl) else .isFalse (by simp [h])

/-! ### Mask parsing (`parse_mask`, `generators.py` lines 133-172) -/

/-- Python `s.split(',')`. -/
def splitComma : Str → List Str
  | [] => [[]]
  | c :: rest =>
    let r := splitComma rest
    if c = ',' then [] :: r
    else
      match r with
      | [] => [[c]]
      | h :: t => (c :: h) :: t

/-- Python `int(s)`, modelled for the numeric length bounds of the mask
grammar: a nonempty string of decimal digits; anything else raises
`ValueError`.  (CPython's `int` additionally tolerates surrounding
whitespace, a sign and digit-group underscores; the spec's mask grammar has
plain numeric bounds, and no claim exercises those extensions.) -/
def pyInt (s : Str) : Except PyErr Nat :=
  if s ≠ [] ∧ s.all Char.isDigit then .ok (digitsToNat s) else .error .valueError

/-- The length-specifier logic of `parse_mask`: the text between `{` and `}`
is split on `,`; an empty spec means length 1..1; `{N}` means N..N;
`{MIN,MAX}` with an empty `MIN` defaults to 1 and an empty `MAX` defaults to
`MIN`; two or more commas fail the two-variable unpacking (`ValueError`). -/
def parseLenSpec (lm : Str) : Except PyErr (Nat × Nat) :=
  if lm.contains ',' then
    match splitComma lm with
    | [mn, mx] =>
      match (if mn = [] then .ok 1 else pyInt mn : Except PyErr Nat) with
      | .error e => .error e
      | .ok mnv =>
        match (if mx = [] then .ok mnv else pyInt mx : Except PyErr Nat) with
        | .error e => .error e
        | .ok mxv => .ok (mnv, mxv)
    | _ => .error .valueError
  else if lm = [] then .ok (1, 1)
  else
    match pyInt lm with
    | .error e => .error e
    | .ok v => .ok (v, v)

/-- The index-driven `while` loop of `parse_mask`, as fuel-driven recursion
on the remaining characters (each iteration consumes at least one character,
so `mask.length + 1` fuel never runs out; fuel 0 is an unreachable error).
A segment is a charset together with the list of lengths of its inclusive
length range (`range(min_len, max_len + 1)` in the source). -/
def parse_mask_core : Nat → Str → Except PyErr (List (Str × List Nat))
  | 0, _ => .error .valueError
  | _ + 1, [] => .ok []
  | fuel + 1, c :: rest =>
    match CHARSET_MAP c with
    | none => .error .valueError
    | some cs =>
      if rest.head? = some '{' then
        match rest.tail.dropWhile (fun ch => ch != '}') with
        | [] => .error .valueError
        | _ :: r4 =>
          match parseLenSpec (rest.tail.takeWhile (fun ch => ch != '}')) with
          | .error e => .error e
          | .ok (mn, mx) =>
            match parse_mask_core fuel r4 with
            | .error e => .error e
            | .ok tail => .ok ((cs, List.range' mn (mx + 1 - mn)) :: tail)
      else
        match parse_mask_core fuel rest with
        | .error e => .error e
        | .ok tail => .ok ((cs, List.range' 1 1) :: tail)

/-- `parse_mask` of `generators.py`: an empty mask raises `ValueError`,
otherwise the segment list is produced by the scanning loop. -/
def parse_mask (mask : Str) : Except PyErr (List (Str × List Nat)) :=
  if mask = [] then .error .valueError else parse_mask_core (mask.length + 1) mask

/-! ### Mask enumeration (`gen_from_mask`, lines 174-203) -/

/-- `itertools.product(charset, repeat := n)`: all `n`-tuples over the
charset, leftmost position varying slowest (lexicographic in the charset's
character order). -/
def tuples (cs : Str) : Nat → List Str
  | 0 => [[]]
  | n + 1 => cs.flatMap (fun c => (tuples cs n).map (c :: ·))

/-- One segment's candidate parts: `itertools.chain` over its length range,
ascending, of the length-`n` tuple products. -/
def segStrings (cs : Str) (lens : List Nat) : List Str :=
  lens.flatMap (tuples cs)

/-- `itertools.product(*iterators)` over a list of string lists: tuples of
one part per segment, leftmost segment varying slowest. -/
def listProd : List (List Str) → List (List Str)
  | [] => [[]]
  | xs :: rest => xs.flatMap (fun x => (listProd rest).map (x :: ·))

/-- The canonical (non-resumed) candidate sequence of a parsed mask:
the Cartesian product across segments, each combination's parts joined. -/
def canonOf (segs : List (Str × List Nat)) : List Str :=
  (listProd (segs.map (fun s => segStrings s.1 s.2))).map List.flatten

/-- `gen_from_mask`: parse the mask (a parse failure raises on first
iteration, modelled by `Except`), build the per-segment iterators, and skip
through the product per the shared resume loop. -/
def gen_from_mask (mask : Str) (start_after : Option Str) : Except PyErr (List Str) :=
  match parse_mask mask with
  | .error e => .error e
  | .ok segs =>
    .ok (if segs = [] then [] else resumeSkip start_after (canonOf segs))

/-- `estimate_total_from_mask` (lines 9-23): parse failures give `None`
(`except Exception`), an empty parse gives `None`, otherwise the running
product over segments of the sum over the length range of
`len(charset) ** length`. -/
def estimate_total_from_mask (mask : Str) : Option Nat :=
  match parse_mask mask with
  | .error _ => none
  | .ok parsed =>
    if parsed = [] then none
    else some (parsed.foldl
      (fun total seg => total * seg.2.foldl (fun acc len => acc + seg.1.length ^ len) 0) 1)

/-! ### Wordlist generator (`gen_wordlist`, lines 48-57)

The file is modelled as the list of its lines (as Python's line iterator
delivers them, trailing newline included); decoding is `latin-1`, under
which every byte maps to a character, so reading never fails. -/

/-- The loop body of `gen_wordlist`: while `found_start` is false, a line
whose stripped form equals `x` flips the flag and is skipped; lines seen
with the flag set are yielded stripped; lines seen with the flag unset and
no match are dropped. -/
def gwAux (x : Str) : Bool → List Str → List Str
  | _, [] => []
  | false, l :: ls =>
    if pstrip l = x then gwAux x true ls else gwAux x false ls
  | true, l :: ls => pstrip l :: gwAux x true ls

/-- `gen_wordlist`: `found_start = not bool(start_after)`, so a falsy
`start_after` (`None` or `""`) yields from the beginning. -/
def gen_wordlist (lines : List Str) (start_after : Option Str) : List Str :=
  match start_after with
  | none => gwAux [] true lines
  | some x => if x = [] then gwAux x true lines else gwAux x false lines

/-! ### Custom-pattern generator (`gen_custom_query`, lines 116-131) -/

/-- Match `\{(\d+)-(\d+)\}` at the head of `s`: `{`, a maximal nonempty
digit run, `-`, a maximal nonempty digit run, `}`; returns the two digit
runs and the remainder. -/
def parseBlock : Str → Option (Str × Str × Str)
  | [] => none
  | c :: t =>
    if c = '{' then
      let d1 := t.takeWhile Char.isDigit
      match t.dropWhile Char.isDigit with
      | '-' :: t2 =>
        let d2 := t2.takeWhile Char.isDigit
        match t2.dropWhile Char.isDigit with
        | '}' :: rest => if d1 = [] ∨ d2 = [] then none else some (d1, d2, rest)
        | _ => none
      | _ => none
    else none

/-- `re.search(r'(.*)\{(\d+)-(\d+)\}(.*)', query)` for a newline-free
query: the greedy `(.*)` prefix makes the engine pick the *last* position
at which a `{MIN-MAX}` block parses; the first group is everything before
it and the last group everything after it.  (With `re`'s dot, groups 1 and
4 cannot cross a newline; queries are modelled newline-free, and theorems
quantifying over query parts carry that hypothesis.) -/
def matchQuery : Str → Option (Str × Str × Str × Str)
  | [] => none
  | c :: rest =>
    match matchQuery rest with
    | some (p, d1, d2, s) => some (c :: p, d1, d2, s)
    | none =>
      match parseBlock (c :: rest) with
      | some (d1, d2, s) => some ([], d1, d2, s)
      | none => none

/-- `gen_custom_query`: no block means the generator returns without
yielding (no exception); otherwise integers from
`max(MIN, start_num)` to `MAX`, where `start_num` is 0 without a resume
value, and with one is `int(first digit run of start_after) + 1`, falling
back to `MIN` when `start_after` has no digits (`AttributeError` caught).
Each number is zero-padded to the digit-width of the `MAX` literal iff
`add_zeros`, and wrapped in the literal prefix and suffix. -/
def gen_custom_query (query : Str) (add_zeros : Bool) (start_after : Option Str) :
    List Str :=
  match matchQuery query with
  | none => []
  | some (pre, minD, maxD, suf) =>
    let start := digitsToNat minD
    let endv := digitsToNat maxD
    let width := if add_zeros then maxD.length else 0
    let start_num : Nat :=
      if truthyOpt start_after then
        match firstDigitRun (start_after.getD []) with
        | some run => digitsToNat run + 1
        | none => start
      else 0
    (List.range' (max start start_num) (endv + 1 - max start start_num)).map
      (fun i => pre ++ (if add_zeros then padTo width (natStr i) else natStr i) ++ suf)

/-! ### Custom-charset brute force (`gen_custom_brute`, lines 258-274) -/

/-- `gen_custom_brute`: with a truthy `start_after` the length loop starts
at `len(start_after)` (regardless of `min_l`); at exactly that length the
product is fast-forwarded past `start_after` by `dropwhile` plus one
`next`; later lengths enumerate fully.  Without a resume value, lengths
`min_l..max_l` ascending, each in full product order. -/
def gen_custom_brute (charset : Str) (min_l max_l : Nat) (start_after : Option Str) :
    List Str :=
  match start_after with
  | some x =>
    if x = [] then (List.range' min_l (max_l + 1 - min_l)).flatMap (tuples charset)
    else
      (List.range' x.length (max_l + 1 - x.length)).flatMap (fun len =>
        if len = x.length then (((tuples charset len).dropWhile (· ≠ x)).drop 1)
        else tuples charset len)
  | none => (List.range' min_l (max_l + 1 - min_l)).flatMap (tuples charset)

/-! ### Worker and dispatcher (`pdfraven/cracker.py`)

The external decryption collaborator `pikepdf.open(pdf_path, password=p)`
is modelled as a function from the candidate to one of three outcomes
(success, `PasswordError`, any other exception); the document path is
absorbed into it. -/

/-- Outcome of one trial decryption at the external boundary. -/
inductive OpenOutcome where
  | success
  | passwordError
  | otherError
  deriving DecidableEq, Repr

/-- `attempt_crack_batch` (lines 10-26): try each candidate in batch order;
return the first that opens the document; a wrong password or any other
per-candidate exception moves on to the next candidate; `None` if all fail. -/
def attempt_crack_batch (tryOpen : Str → OpenOutcome) : List Str → Option Str
  | [] => none
  | p :: rest =>
    match tryOpen p with
    | .success => some p
    | .passwordError => attempt_crack_batch tryOpen rest
    | .otherError => attempt_crack_batch tryOpen rest

/-- Coordinator state of `run_attack`'s candidate loop.  A future is
modelled by its worker's result (the batch is evaluated at submission);
`submitted` is observational instrumentation recording the submitted
batches in order, with no counterpart in the source. -/
structure RunState where
  batch : List Str
  futures : List (Option Str)
  found : Option Str
  lastChecked : Option Str
  submitted : List (List Str)
  deriving DecidableEq, Repr

/-- One iteration of `for pwd in generator` in `run_attack` (lines 47-73,
no timeout): append to the batch, update the last-checked cursor, submit a
full batch, and under backpressure (`len(futures) >= workers * 5`) wait for
a completion.  The scheduler is modelled deterministically: futures
complete in submission order and each wait returns exactly the oldest one.
A truthy (non-`None`, non-empty) result records the found password; the
bottom-of-loop `if found_password: break` is modelled by making every later
iteration a no-op. -/
def runStep (tryOpen : Str → OpenOutcome) (batch_size workers : Nat)
    (s : RunState) (pwd : Str) : RunState :=
  if s.found.isSome then s
  else
    let batch' := s.batch ++ [pwd]
    if batch_size ≤ batch'.length then
      let fut := attempt_crack_batch tryOpen batch'
      let futures' := s.futures ++ [fut]
      let submitted' := s.submitted ++ [batch']
      if workers * 5 ≤ futures'.length then
        match futures' with
        | [] => { batch := [], futures := [], found := s.found,
                  lastChecked := some pwd, submitted := submitted' }
        | f :: rest =>
          if truthyOpt f then
            { batch := [], futures := futures', found := f,
              lastChecked := some pwd, submitted := submitted' }
          else
            { batch := [], futures := rest, found := s.found,
              lastChecked := some pwd, submitted := submitted' }
      else
        { batch := [], futures := futures', found := s.found,
          lastChecked := some pwd, submitted := submitted' }
    else
      { s with batch := batch', lastChecked := some pwd }

/-- The candidate loop of `run_attack` over the whole generator output. -/
def runLoop (tryOpen : Str → OpenOutcome) (batch_size workers : Nat)
    (cands : List Str) (s : RunState) : RunState :=
  cands.foldl (runStep tryOpen batch_size workers) s

/-- `if batch and not found_password:` — submit the final partial batch. -/
def finalSubmit (tryOpen : Str → OpenOutcome) (s : RunState) : RunState :=
  if s.batch ≠ [] ∧ s.found = none then
    { s with futures := s.futures ++ [attempt_crack_batch tryOpen s.batch],
             submitted := s.submitted ++ [s.batch] }
  else s

/-- The drain loop `for future in as_completed(futures)` (completion order
is submission order in the deterministic scheduler): the first truthy
result is the found password. -/
def drainF : List (Option Str) → Option Str
  | [] => none
  | f :: rest => if truthyOpt f then f else drainF rest

/-- The effect of `run_attack`'s epilogue (lines 99-104) on the session
store: clear on a truthy found password, otherwise save the last-checked
cursor when it is truthy, otherwise do nothing. -/
inductive SessionAction where
  | clear
  | save (cursor : Str)
  | skip
  deriving DecidableEq, Repr

/-- The session decision of `run_attack` (lines 99-104). -/
def sessionAct (found : Option Str) (lastChecked : Option Str) : SessionAction :=
  if truthyOpt found then .clear
  else if truthyOpt lastChecked then .save (lastChecked.getD [])
  else .skip

/-- The coordinator state at the top of `run_attack`: empty batch, no
futures, nothing found, the cursor initialised to `resume_pass`. -/
def initState (resume_pass : Option Str) : RunState :=
  { batch := [], futures := [], found := none,
    lastChecked := resume_pass, submitted := [] }

/-- `run_attack` (lines 30-105) without a timeout and without an external
interrupt, under the deterministic scheduler: run the candidate loop from
an empty state (the cursor starts at `resume_pass`), submit the final
partial batch, drain if nothing was found, and decide the session action.
Returns (found password, session action, submitted batches). -/
def run_attack (tryOpen : Str → OpenOutcome) (generator : List Str)
    (workers batch_size : Nat) (resume_pass : Option Str) :
    Option Str × SessionAction × List (List Str) :=
  let s := runLoop tryOpen batch_size workers generator (initState resume_pass)
  let s := finalSubmit tryOpen s
  let found := if s.found.isSome then s.found else drainF s.futures
  (found, sessionAct found s.lastChecked, s.submitted)

/-- Every completed future's result is a candidate that opens the document
(dispatcher invariant). -/
def futSound (t : Str → OpenOutcome) (s : RunState) : Prop :=
  ∀ f ∈ s.futures, ∀ p, f = some p → t p = .success

/-- The recorded found password opens the document and is non-empty
(dispatcher invariant). -/
def foundSound (t : Str → OpenOutcome) (s : RunState) : Prop :=
  ∀ p, s.found = some p → t p = .success ∧ p ≠ []

/-- While nothing is found, a designated successful candidate that has been
pulled is still reachable: in the open batch, or inside a future whose
result is truthy (dispatcher invariant). -/
def liveFor (c : Str) (s : RunState) : Prop :=
  s.found = none → (c ∈ s.batch ∨ ∃ f ∈ s.futures, truthyOpt f = true)

/-- A concrete decryption collaborator for which exactly the password `b`
opens the document. -/
def tryB : Str → OpenOutcome :=
  fun s => if s = toStr "b" then .success else .passwordError

/-- A concrete eleven-candidate stream whose sixth candidate is the correct
password `b`; the last candidate `z` exists only to be left unexamined. -/
def candsB : List Str :=
  [toStr "w1", toStr "w2", toStr "w3", toStr "w4", toStr "w5", toStr "b",
   toStr "w7", toStr "w8", toStr "w9", toStr "wa", toStr "z"]

/-- A concrete decryption collaborator for which exactly the empty password
opens the document. -/
def tryEmpty : Str → OpenOutcome :=
  fun s => if s = [] then .success else .passwordError

/-- A concrete decryption collaborator that rejects every password. -/
def tryNone : Str → OpenOutcome := fun _ => .passwordError

/-! ### Session store (`pdfraven/database.py`) -/

/-- Python values produced by `json.load`. -/
inductive PyJson where
  | obj (kvs : List (Str × PyJson))
  | arr (elems : List PyJson)
  | str (s : Str)
  | num (n : Int)
  | boolean (b : Bool)
  | null

/-- First-match association lookup (JSON objects parse to Python dicts;
duplicate keys cannot arise from `json.dump`, so first-match is adequate). -/
def lookupKey (k : Str) : List (Str × PyJson) → Option PyJson
  | [] => none
  | (k', v) :: rest => if k' = k then some v else lookupKey k rest

/-- Python subscription `v['k']`: a dict yields the value or raises
`KeyError`; any non-dict raises `TypeError`. -/
def pyGetItem (v : PyJson) (k : Str) : Except PyErr PyJson :=
  match v with
  | .obj kvs =>
    match lookupKey k kvs with
    | some x => .ok x
    | none => .error .keyError
  | _ => .error .typeError

/-- Python `d.get('k')` on a dict: the value, or `None` when absent. -/
def pyDictGet (v : PyJson) (k : Str) : PyJson :=
  match v with
  | .obj kvs =>
    match lookupKey k kvs with
    | some x => x
    | none => .null
  | _ => .null

/-- The key `'last_password'` of a session record. -/
def lastPasswordKey : Str := toStr "last_password"

/-- A session file at the I/O boundary: absent, or present and failing
`json.load` (`JSONDecodeError`), or present with a parsed value. -/
abbrev SessionFile := Option (Except Unit PyJson)

/-- `load_session` (`database.py` lines 70-81): an absent file gives
`None`; a `JSONDecodeError` is caught (`None`); with a parsed value, the
log f-string evaluates `session_data['last_password']` first — a missing
key raises `KeyError` (caught, `None`) and a non-dict value raises
`TypeError`, which the `except (json.JSONDecodeError, KeyError)` clause
does not catch; finally `session_data.get('last_password')` is returned
(Python's `None` is JSON `null`). -/
def load_session (file : SessionFile) : Except PyErr PyJson :=
  match file with
  | none => .ok .null
  | some (.error _) => .ok .null
  | some (.ok j) =>
    match pyGetItem j lastPasswordKey with
    | .error .keyError => .ok .null
    | .error e => .error e
    | .ok _ => .ok (pyDictGet j lastPasswordKey)

/-- The session-file contents written by `save_session` (lines 61-68). -/
def save_session_file (cursor : Str) : SessionFile :=
  some (.ok (.obj [(lastPasswordKey, .str cursor)]))

/-- Effect of a `SessionAction` on the session file for the document:
`clear_session` removes the file, `save_session` overwrites it. -/
def sessionFileAfter : SessionAction → SessionFile → SessionFile
  | .clear, _ => none
  | .save c, _ => save_session_file c
  | .skip, st => st

/-! ### Helper lemmas: resume skipping -/

theorem dropThrough_of_not_mem {x : Str} {l : List Str} (h : x ∉ l) :
    dropThrough x l = [] := by
  induction l with
  | nil => rfl
  | cons a t ih =>
    simp only [dropThrough]
    rw [if_neg (by rintro rfl; exact h (List.mem_cons_self a t))]
    exact ih (fun hx => h (List.mem_cons_of_mem a hx))

theorem dropThrough_first_occurrence {x : Str} {l1 l2 : List Str} (h : x ∉ l1) :
    dropThrough x (l1 ++ x :: l2) = l2 := by
  induction l1 with
  | nil => simp [dropThrough]
  | cons a t ih =>
    simp only [List.cons_append, dropThrough]
    rw [if_neg (by rintro rfl; exact h (List.mem_cons_self a t))]
    exact ih (fun hx => h (List.mem_cons_of_mem a hx))

/-! ### Helper lemmas: the wordlist generator -/

theorem gwAux_true (x : Str) (lines : List Str) :
    gwAux x true lines = lines.map pstrip := by
  induction lines with
  | nil => rfl
  | cons l ls ih => simp [gwAux, ih]

theorem gwAux_false (x : Str) (lines : List Str) :
    gwAux x false lines = dropThrough x (lines.map pstrip) := by
  induction lines with
  | nil => rfl
  | cons l ls ih =>
    simp only [gwAux, List.map_cons, dropThrough]
    by_cases h : pstrip l = x
    · rw [if_pos h, if_pos h, gwAux_true]
    · rw [if_neg h, if_neg h, ih]

theorem gen_wordlist_none (lines : List Str) :
    gen_wordlist lines none = lines.map pstrip := gwAux_true [] lines

theorem gen_wordlist_some {x : Str} (hx : x ≠ []) (lines : List Str) :
    gen_wordlist lines (some x) = dropThrough x (lines.map pstrip) := by
  simp only [gen_wordlist, if_neg hx]
  exact gwAux_false x lines

/-! ### Helper lemmas: `List.range'` slicing -/

theorem range'_drop (k : Nat) : ∀ (s n : Nat),
    (List.range' s n).drop k = List.range' (s + k) (n - k) := by
  induction k with
  | zero => intro s n; simp
  | succ k ih =>
    intro s n
    cases n with
    | zero => simp [List.range']
    | succ n =>
      rw [List.range'_succ, List.drop_succ_cons, ih (s + 1) n]
      congr 1 <;> omega

theorem range'_getElem? {k n : Nat} (h : k < n) (s : Nat) :
    (List.range' s n)[k]? = some (s + k) := by
  induction k generalizing s n with
  | zero =>
    cases n with
    | zero => omega
    | succ n => simp [List.range'_succ]
  | succ k ih =>
    cases n with
    | zero => omega
    | succ n =>
      rw [List.range'_succ]
      simp only [List.getElem?_cons_succ]
      rw [ih (by omega) (s + 1)]
      congr 1
      omega

/-! ### Helper lemmas: decimal numerals -/

theorem digitChar_isDigit {d : Nat} (h : d < 10) :
    (Nat.digitChar d).isDigit = true := by
  interval_cases d <;> decide

theorem digitChar_toNat {d : Nat} (h : d < 10) :
    (Nat.digitChar d).toNat - 48 = d := by
  interval_cases d <;> decide

theorem natStrAux_ne_nil {fuel : Nat} (h : 0 < fuel) (n : Nat) :
    natStrAux fuel n ≠ [] := by
  cases fuel with
  | zero => omega
  | succ fuel =>
    simp only [natStrAux]
    split
    · simp
    · simp

theorem natStrAux_all_digits : ∀ (fuel n : Nat),
    ∀ c ∈ natStrAux fuel n, c.isDigit = true := by
  intro fuel
  induction fuel with
  | zero => intro n c hc; simp [natStrAux] at hc
  | succ fuel ih =>
    intro n c hc
    simp only [natStrAux] at hc
    split at hc
    · rw [List.mem_singleton] at hc
      subst hc
      exact digitChar_isDigit (by omega)
    · rw [List.mem_append, List.mem_singleton] at hc
      rcases hc with hc | hc
      · exact ih _ c hc
      · subst hc
        exact digitChar_isDigit (Nat.mod_lt _ (by omega))

theorem digitsToNat_append_singleton (xs : Str) (c : Char) :
    digitsToNat (xs ++ [c]) = 10 * digitsToNat xs + (c.toNat - 48) := by
  simp [digitsToNat, List.foldl_append]

theorem natStrAux_roundtrip : ∀ (fuel n : Nat), n < 10 ^ fuel →
    digitsToNat (natStrAux fuel n) = n := by
  intro fuel
  induction fuel with
  | zero =>
    intro n h
    have hn : n = 0 := by simpa using h
    subst hn
    rfl
  | succ fuel ih =>
    intro n h
    simp only [natStrAux]
    split
    · next h10 =>
      simp only [digitsToNat, List.foldl_cons, List.foldl_nil]
      rw [Nat.mul_zero, Nat.zero_add]
      exact digitChar_toNat h10
    · next h10 =>
      rw [digitsToNat_append_singleton, ih (n / 10) ?_, digitChar_toNat (Nat.mod_lt _ (by omega))]
      · omega
      · rw [Nat.div_lt_iff_lt_mul (by omega)]
        calc n < 10 ^ (fuel + 1) := h
        _ = 10 ^ fuel * 10 := by rw [Nat.pow_succ]

theorem natStr_ne_nil (n : Nat) : natStr n ≠ [] :=
  natStrAux_ne_nil (by omega) n

theorem natStr_all_digits (n : Nat) : ∀ c ∈ natStr n, c.isDigit = true :=
  natStrAux_all_digits (n + 1) n

theorem lt_ten_pow_succ : ∀ n : Nat, n < 10 ^ (n + 1) := by
  intro n
  induction n with
  | zero => decide
  | succ n ih =>
    calc n + 1 < 10 ^ (n + 1) + 1 := by omega
    _ ≤ 10 ^ (n + 1 + 1) := by
        have : 10 ^ (n + 1) ≥ 1 := Nat.one_le_pow _ _ (by omega)
        calc 10 ^ (n + 1) + 1 ≤ 10 ^ (n + 1) * 10 := by omega
        _ = 10 ^ (n + 1 + 1) := (Nat.pow_succ ..).symm

theorem natStr_roundtrip (n : Nat) : digitsToNat (natStr n) = n :=
  natStrAux_roundtrip (n + 1) n (lt_ten_pow_succ n)

theorem digitsToNat_replicate_zero_append (k : Nat) (ds : Str) :
    digitsToNat (List.replicate k '0' ++ ds) = digitsToNat ds := by
  induction k with
  | zero => rfl
  | succ k ih =>
    rw [List.replicate_succ, List.cons_append]
    simpa [digitsToNat] using ih

theorem padTo_roundtrip (w : Nat) (ds : Str) :
    digitsToNat (padTo w ds) = digitsToNat ds :=
  digitsToNat_replicate_zero_append _ ds

theorem padTo_ne_nil {w : Nat} {ds : Str} (h : ds ≠ []) : padTo w ds ≠ [] := by
  simp [padTo, h]

theorem padTo_all_digits {w : Nat} {ds : Str} (h : ∀ c ∈ ds, c.isDigit = true) :
    ∀ c ∈ padTo w ds, c.isDigit = true := by
  intro c hc
  rw [padTo, List.mem_append] at hc
  rcases hc with hc | hc
  · rw [List.eq_of_mem_replicate hc]; decide
  · exact h c hc

/-! ### Helper lemmas: `takeWhile`/`dropWhile` across an append -/

theorem takeWhile_all_append {p : Char → Bool} {l : Str} (r : Str)
    (h : ∀ c ∈ l, p c = true) :
    (l ++ r).takeWhile p = l ++ r.takeWhile p := by
  induction l with
  | nil => simp
  | cons a t ih =>
    simp only [List.cons_append, List.takeWhile_cons,
      h a (List.mem_cons_self a t), if_true, List.cons.injEq, true_and]
    exact ih (fun c hc => h c (List.mem_cons_of_mem a hc))

theorem dropWhile_all_append {p : Char → Bool} {l : Str} (r : Str)
    (h : ∀ c ∈ l, p c = true) :
    (l ++ r).dropWhile p = r.dropWhile p := by
  induction l with
  | nil => simp
  | cons a t ih =>
    simp only [List.cons_append, List.dropWhile_cons, h a (List.mem_cons_self a t)]
    exact ih (fun c hc => h c (List.mem_cons_of_mem a hc))

theorem takeWhile_head_neg {p : Char → Bool} {r : Str}
    (h : ∀ c, r.head? = some c → p c = false) :
    r.takeWhile p = [] := by
  cases r with
  | nil => rfl
  | cons a t => simp [List.takeWhile_cons, h a rfl]

theorem dropWhile_head_neg {p : Char → Bool} {r : Str}
    (h : ∀ c, r.head? = some c → p c = false) :
    r.dropWhile p = r := by
  cases r with
  | nil => rfl
  | cons a t => simp [List.dropWhile_cons, h a rfl]

/-! ### Helper lemmas: the first digit run -/

theorem firstDigitRun_construct {pre ds suf : Str}
    (hpre : ∀ c ∈ pre, c.isDigit = false)
    (hne : ds ≠ []) (hds : ∀ c ∈ ds, c.isDigit = true)
    (hsuf : ∀ c, suf.head? = some c → c.isDigit = false) :
    firstDigitRun (pre ++ ds ++ suf) = some ds := by
  have hdrop : (pre ++ ds ++ suf).dropWhile (fun c => !c.isDigit) = ds ++ suf := by
    rw [List.append_assoc, dropWhile_all_append (ds ++ suf)
      (fun c hc => by simp [hpre c hc])]
    cases ds with
    | nil => exact absurd rfl hne
    | cons a t => simp [List.dropWhile_cons, hds a (List.mem_cons_self a t)]
  have htake : (ds ++ suf).takeWhile Char.isDigit = ds := by
    rw [takeWhile_all_append suf hds, takeWhile_head_neg hsuf, List.append_nil]
  rw [firstDigitRun]
  simp only [hdrop]
  rw [if_neg (by simp [hne]), htake]

/-! ### Helper lemmas: locating the `{MIN-MAX}` block -/

theorem parseBlock_construct {minD maxD : Str} (suf : Str)
    (hm : minD ≠ []) (hmd : ∀ c ∈ minD, c.isDigit = true)
    (hx : maxD ≠ []) (hxd : ∀ c ∈ maxD, c.isDigit = true) :
    parseBlock ('{' :: (minD ++ '-' :: (maxD ++ '}' :: suf))) =
      some (minD, maxD, suf) := by
  have hminus : ∀ c : Char, (('-' :: (maxD ++ '}' :: suf)) : Str).head? = some c →
      c.isDigit = false := by
    intro c hc
    simp only [List.head?_cons, Option.some.injEq] at hc
    subst hc
    decide
  have hbrace : ∀ c : Char, (('}' :: suf) : Str).head? = some c →
      c.isDigit = false := by
    intro c hc
    simp only [List.head?_cons, Option.some.injEq] at hc
    subst hc
    decide
  have ht1 : (minD ++ '-' :: (maxD ++ '}' :: suf)).takeWhile Char.isDigit = minD := by
    rw [takeWhile_all_append _ hmd, takeWhile_head_neg hminus, List.append_nil]
  have hd1 : (minD ++ '-' :: (maxD ++ '}' :: suf)).dropWhile Char.isDigit =
      '-' :: (maxD ++ '}' :: suf) := by
    rw [dropWhile_all_append _ hmd, dropWhile_head_neg hminus]
  have ht2 : (maxD ++ '}' :: suf).takeWhile Char.isDigit = maxD := by
    rw [takeWhile_all_append _ hxd, takeWhile_head_neg hbrace, List.append_nil]
  have hd2 : (maxD ++ '}' :: suf).dropWhile Char.isDigit = '}' :: suf := by
    rw [dropWhile_all_append _ hxd, dropWhile_head_neg hbrace]
  rw [parseBlock, if_pos rfl, hd1, ht1]
  simp only [hd2, ht2]
  rw [if_neg (by simp [hm, hx])]

theorem matchQuery_append_none (l r : Str)
    (hl : ∀ c ∈ l, c ≠ '{') (hr : matchQuery r = none) :
    matchQuery (l ++ r) = none := by
  induction l with
  | nil => simpa using hr
  | cons a t ih =>
    have hrec := ih (fun c hc => hl c (List.mem_cons_of_mem a hc))
    have hblock : parseBlock (a :: (t ++ r)) = none := by
      have ha := hl a (List.mem_cons_self a t)
      simp only [parseBlock, if_neg ha]
    simp only [List.cons_append, matchQuery, List.append_eq, hrec, hblock]

theorem matchQuery_construct {pre minD maxD suf : Str}
    (hm : minD ≠ []) (hmd : ∀ c ∈ minD, c.isDigit = true)
    (hx : maxD ≠ []) (hxd : ∀ c ∈ maxD, c.isDigit = true)
    (hsuf : matchQuery suf = none) :
    matchQuery (pre ++ '{' :: (minD ++ '-' :: (maxD ++ '}' :: suf))) =
      some (pre, minD, maxD, suf) := by
  induction pre with
  | nil =>
    have hnone : matchQuery (minD ++ '-' :: (maxD ++ '}' :: suf)) = none := by
      apply matchQuery_append_none
      · intro c hc
        have := hmd c hc
        rintro rfl
        simp at this
      · apply matchQuery_append_none ('-' :: maxD) ('}' :: suf)
        · intro c hc
          rcases List.mem_cons.mp hc with rfl | hc
          · decide
          · have := hxd c hc
            rintro rfl
            simp at this
        · rw [show ('}' :: suf : Str) = ['}'] ++ suf by rfl]
          apply matchQuery_append_none
          · intro c hc
            rw [List.mem_singleton] at hc
            subst hc
            decide
          · exact hsuf
    simp only [List.nil_append, matchQuery, List.append_eq, hnone,
      parseBlock_construct suf hm hmd hx hxd]
  | cons a t ih =>
    simp only [List.cons_append, matchQuery, List.append_eq, ih]

/-! ### Helper lemmas: `gen_custom_query` unfolding -/

theorem gen_custom_query_no_block {q : Str} (az : Bool) (sa : Option Str)
    (h : matchQuery q = none) : gen_custom_query q az sa = [] := by
  simp [gen_custom_query, h]

theorem gen_custom_query_canonical {q pre minD maxD suf : Str} (az : Bool)
    (h : matchQuery q = some (pre, minD, maxD, suf)) :
    gen_custom_query q az none =
      (List.range' (digitsToNat minD) (digitsToNat maxD + 1 - digitsToNat minD)).map
        (fun i => pre ++ (if az then padTo maxD.length (natStr i)
                          else natStr i) ++ suf) := by
  cases az <;> simp [gen_custom_query, h, truthyOpt, Nat.max_comm, Nat.max_zero]

/-! ### Helper lemmas: mask enumeration counting -/

theorem flatMap_length_const {α β : Type} {l : List α} {f : α → List β} (k : Nat)
    (h : ∀ a ∈ l, (f a).length = k) : (l.flatMap f).length = l.length * k := by
  induction l with
  | nil => simp
  | cons a t ih =>
    rw [List.flatMap_cons, List.length_append, h a (List.mem_cons_self a t),
      ih (fun b hb => h b (List.mem_cons_of_mem a hb)), List.length_cons]
    ring

theorem tuples_length (cs : Str) : ∀ n, (tuples cs n).length = cs.length ^ n := by
  intro n
  induction n with
  | zero => rfl
  | succ n ih =>
    rw [tuples, flatMap_length_const (cs.length ^ n)
      (fun a _ => by rw [List.length_map, ih]), Nat.pow_succ]
    ring

theorem segStrings_length (cs : Str) (lens : List Nat) :
    (segStrings cs lens).length = (lens.map (cs.length ^ ·)).sum := by
  induction lens with
  | nil => rfl
  | cons l ls ih =>
    rw [segStrings, List.flatMap_cons, List.length_append, tuples_length,
      List.map_cons, List.sum_cons]
    exact congrArg _ ih

theorem listProd_length : ∀ xss : List (List Str),
    (listProd xss).length = (xss.map List.length).prod := by
  intro xss
  induction xss with
  | nil => rfl
  | cons xs rest ih =>
    rw [listProd, flatMap_length_const ((listProd rest).length)
      (fun a _ => List.length_map _ _), List.map_cons, List.prod_cons, ih]

theorem canonOf_length (segs : List (Str × List Nat)) :
    (canonOf segs).length =
      (segs.map (fun seg => (seg.2.map (seg.1.length ^ ·)).sum)).prod := by
  rw [canonOf, List.length_map, listProd_length, List.map_map]
  congr 1
  apply List.map_congr_left
  intro seg _
  exact segStrings_length seg.1 seg.2

theorem foldl_add_sum {g : Nat → Nat} : ∀ (l : List Nat) (a : Nat),
    l.foldl (fun acc x => acc + g x) a = a + (l.map g).sum := by
  intro l
  induction l with
  | nil => intro a; simp
  | cons x xs ih =>
    intro a
    rw [List.foldl_cons, ih, List.map_cons, List.sum_cons]
    ring

theorem foldl_mul_prod {g : α → Nat} : ∀ (l : List α) (a : Nat),
    l.foldl (fun acc x => acc * g x) a = a * (l.map g).prod := by
  intro l
  induction l with
  | nil => intro a; simp
  | cons x xs ih =>
    intro a
    rw [List.foldl_cons, ih, List.map_cons, List.prod_cons]
    ring

theorem parse_mask_ok_ne_nil {mask : Str} {segs : List (Str × List Nat)}
    (h : parse_mask mask = .ok segs) : segs ≠ [] := by
  rw [parse_mask] at h
  split at h
  · exact absurd h (by simp)
  · next hmask =>
    cases mask with
    | nil => exact absurd rfl hmask
    | cons c rest =>
      rw [parse_mask_core] at h
      split at h
      · exact absurd h (by simp)
      · split at h
        · split at h
          · exact absurd h (by simp)
          · split at h
            · exact absurd h (by simp)
            · split at h
              · exact absurd h (by simp)
              · simp only [Except.ok.injEq] at h
                subst h
                simp
        · split at h
          · exact absurd h (by simp)
          · simp only [Except.ok.injEq] at h
            subst h
            simp

/-! ### Helper lemmas: the worker function -/

theorem attempt_sound (t : Str → OpenOutcome) : ∀ {b : List Str} {p : Str},
    attempt_crack_batch t b = some p → t p = .success ∧ p ∈ b := by
  intro b
  induction b with
  | nil => intro p h; exact absurd h (by simp [attempt_crack_batch])
  | cons a rest ih =>
    intro p h
    rw [attempt_crack_batch] at h
    split at h
    · next hs =>
      simp only [Option.some.injEq] at h
      subst h
      exact ⟨hs, List.mem_cons_self _ _⟩
    · exact ⟨(ih h).1, List.mem_cons_of_mem a (ih h).2⟩
    · exact ⟨(ih h).1, List.mem_cons_of_mem a (ih h).2⟩

theorem attempt_isSome_of_mem (t : Str → OpenOutcome) : ∀ {b : List Str} {c : Str},
    c ∈ b → t c = .success → (attempt_crack_batch t b).isSome = true := by
  intro b
  induction b with
  | nil => intro c hc _; exact absurd hc (by simp)
  | cons a rest ih =>
    intro c hc hs
    rw [attempt_crack_batch]
    rcases List.mem_cons.mp hc with rfl | hmem
    · rw [hs]; rfl
    · split
      · rfl
      · exact ih hmem hs
      · exact ih hmem hs

theorem attempt_truthy {t : Str → OpenOutcome} {b : List Str} {c : Str}
    (H : ∀ p, t p = .success → p ≠ [])
    (hc : c ∈ b) (hs : t c = .success) :
    truthyOpt (attempt_crack_batch t b) = true := by
  rcases Option.isSome_iff_exists.mp (attempt_isSome_of_mem t hc hs) with ⟨p, hp⟩
  rw [hp]
  have := H p (attempt_sound t hp).1
  simp [truthyOpt, this]

/-! ### Helper lemmas: dispatcher invariants -/

theorem runStep_sound (t : Str → OpenOutcome) (bs w : Nat) {s : RunState}
    (hfs : futSound t s) (hfd : foundSound t s) (pwd : Str) :
    futSound t (runStep t bs w s pwd) ∧ foundSound t (runStep t bs w s pwd) := by
  have hnewf : ∀ f ∈ s.futures ++ [attempt_crack_batch t (s.batch ++ [pwd])],
      ∀ p, f = some p → t p = .success := by
    intro f hf p hfp
    rcases List.mem_append.mp hf with hmem | hmem
    · exact hfs f hmem p hfp
    · rw [List.mem_singleton] at hmem
      subst hmem
      exact (attempt_sound t hfp).1
  simp only [runStep]
  split
  · exact ⟨hfs, hfd⟩
  · split
    · split
      · split
        · next heq =>
          refine ⟨?_, ?_⟩
          · intro f hf; simp at hf
          · intro p hp; exact hfd p hp
        · next f rest heq =>
          split
          · next htr =>
            refine ⟨?_, ?_⟩
            · intro g hg p hgp
              exact hnewf g (heq ▸ hg) p hgp
            · intro p hp
              simp only at hp
              subst hp
              constructor
              · exact hnewf (some p) (heq ▸ List.mem_cons_self (some p) rest) p rfl
              · intro hnil
                subst hnil
                simp [truthyOpt] at htr
          · refine ⟨?_, ?_⟩
            · intro g hg p hgp
              exact hnewf g (heq ▸ List.mem_cons_of_mem f hg) p hgp
            · intro p hp; exact hfd p hp
      · refine ⟨?_, ?_⟩
        · exact hnewf
        · intro p hp; exact hfd p hp
    · exact ⟨hfs, hfd⟩

theorem runStep_live_aux (t : Str → OpenOutcome) (bs w : Nat) {s : RunState}
    {cstar pwd : Str}
    (H : ∀ p, t p = .success → p ≠ []) (hsucc : t cstar = .success)
    (hpre : s.found = none →
      (cstar ∈ s.batch ++ [pwd] ∨ ∃ f ∈ s.futures, truthyOpt f = true)) :
    liveFor cstar (runStep t bs w s pwd) := by
  rw [liveFor]
  simp only [runStep]
  split
  · next hfound =>
    intro hnone
    rw [hnone] at hfound
    simp at hfound
  · next hfound =>
    have hsn : s.found = none := Option.not_isSome_iff_eq_none.mp hfound
    rcases hpre hsn with hmem | ⟨g, hg, hgt⟩
    · -- the successful candidate is in the batch being extended
      split
      · -- batch full: it is submitted, and the new future is truthy
        have hft : truthyOpt (attempt_crack_batch t (s.batch ++ [pwd])) = true :=
          attempt_truthy H hmem hsucc
        split
        · split
          · next heq => exact absurd heq (by simp)
          · next f rest heq =>
            split
            · next htr =>
              intro hnone
              simp only at hnone
              subst hnone
              simp [truthyOpt] at htr
            · next hnf =>
              intro _
              right
              refine ⟨attempt_crack_batch t (s.batch ++ [pwd]), ?_, hft⟩
              have hmem' : attempt_crack_batch t (s.batch ++ [pwd]) ∈ f :: rest :=
                heq ▸ List.mem_append_right _ (List.mem_singleton.mpr rfl)
              rcases List.mem_cons.mp hmem' with hEq | hmm
              · exact absurd (hEq ▸ hft) (by simp [hnf])
              · exact hmm
        · intro _
          right
          exact ⟨attempt_crack_batch t (s.batch ++ [pwd]),
            List.mem_append_right _ (List.mem_singleton.mpr rfl), hft⟩
      · intro _
        left
        simpa using hmem
    · -- a truthy future already exists
      split
      · split
        · split
          · next heq => exact absurd heq (by simp)
          · next f rest heq =>
            split
            · next htr =>
              intro hnone
              simp only at hnone
              subst hnone
              simp [truthyOpt] at htr
            · next hnf =>
              intro _
              right
              refine ⟨g, ?_, hgt⟩
              have hmem' : g ∈ f :: rest :=
                heq ▸ List.mem_append_left _ hg
              rcases List.mem_cons.mp hmem' with hEq | hmm
              · exact absurd (hEq ▸ hgt) (by simp [hnf])
              · exact hmm
        · intro _
          right
          exact ⟨g, List.mem_append_left _ hg, hgt⟩
      · intro _
        right
        exact ⟨g, hg, hgt⟩

theorem runStep_live (t : Str → OpenOutcome) (bs w : Nat) {s : RunState}
    {cstar : Str} (H : ∀ p, t p = .success → p ≠ []) (hsucc : t cstar = .success)
    (hlive : liveFor cstar s) (pwd : Str) :
    liveFor cstar (runStep t bs w s pwd) := by
  apply runStep_live_aux t bs w H hsucc
  intro hnone
  rcases hlive hnone with hb | hex
  · exact Or.inl (List.mem_append_left _ hb)
  · exact Or.inr hex

theorem runStep_live_self (t : Str → OpenOutcome) (bs w : Nat) {s : RunState}
    {cstar : Str} (H : ∀ p, t p = .success → p ≠ []) (hsucc : t cstar = .success) :
    liveFor cstar (runStep t bs w s cstar) := by
  apply runStep_live_aux t bs w H hsucc
  intro _
  exact Or.inl (List.mem_append_right _ (List.mem_singleton.mpr rfl))

theorem runLoop_sound (t : Str → OpenOutcome) (bs w : Nat) :
    ∀ (cands : List Str) {s : RunState}, futSound t s → foundSound t s →
    futSound t (runLoop t bs w cands s) ∧ foundSound t (runLoop t bs w cands s) := by
  intro cands
  induction cands with
  | nil => intro s hfs hfd; exact ⟨hfs, hfd⟩
  | cons c cs ih =>
    intro s hfs hfd
    have hstep := runStep_sound t bs w hfs hfd c
    exact ih hstep.1 hstep.2

theorem runLoop_live (t : Str → OpenOutcome) (bs w : Nat) {cstar : Str}
    (H : ∀ p, t p = .success → p ≠ []) (hsucc : t cstar = .success) :
    ∀ (cands : List Str) {s : RunState}, futSound t s → foundSound t s →
    liveFor cstar s → liveFor cstar (runLoop t bs w cands s) := by
  intro cands
  induction cands with
  | nil => intro s _ _ hl; exact hl
  | cons c cs ih =>
    intro s hfs hfd hl
    have hstep := runStep_sound t bs w hfs hfd c
    exact ih hstep.1 hstep.2 (runStep_live t bs w H hsucc hl c)

theorem runStep_found_mono (t : Str → OpenOutcome) (bs w : Nat) {s : RunState}
    {pwd : Str} (h : (runStep t bs w s pwd).found = none) : s.found = none := by
  rw [runStep] at h
  split at h
  · exact h
  · next hfound => exact Option.not_isSome_iff_eq_none.mp hfound

theorem runStep_lastChecked (t : Str → OpenOutcome) (bs w : Nat) {s : RunState}
    {pwd : Str} (hsn : s.found = none) :
    (runStep t bs w s pwd).lastChecked = some pwd := by
  simp only [runStep]
  rw [if_neg (by simp [hsn])]
  split
  · split
    · split
      · rfl
      · split
        · rfl
        · rfl
    · rfl
  · rfl

theorem runLoop_found_mono (t : Str → OpenOutcome) (bs w : Nat) :
    ∀ (cands : List Str) {s : RunState},
    (runLoop t bs w cands s).found = none → s.found = none := by
  intro cands
  induction cands with
  | nil => intro s h; exact h
  | cons c cs ih =>
    intro s h
    exact runStep_found_mono t bs w (ih h)

theorem runLoop_getLast (t : Str → OpenOutcome) (bs w : Nat) :
    ∀ (cands : List Str) (s : RunState) (p : Str),
    (runLoop t bs w cands s).found = none → cands.getLast? = some p →
    (runLoop t bs w cands s).lastChecked = some p := by
  intro cands
  induction cands using List.reverseRecOn with
  | nil => intro s p _ h; exact absurd h (by simp)
  | append_singleton l a _ =>
    intro s p hfound hlast
    have hrw : runLoop t bs w (l ++ [a]) s = runStep t bs w (runLoop t bs w l s) a := by
      rw [runLoop, List.foldl_append, List.foldl_cons, List.foldl_nil]
      rfl
    rw [hrw] at hfound ⊢
    have hp : p = a := by
      rw [List.getLast?_concat] at hlast
      exact (Option.some.injEq _ _ ▸ hlast.symm : _)
    subst hp
    exact runStep_lastChecked t bs w (runStep_found_mono t bs w hfound)

theorem finalSubmit_found (t : Str → OpenOutcome) (s : RunState) :
    (finalSubmit t s).found = s.found := by
  rw [finalSubmit]
  split
  · rfl
  · rfl

theorem finalSubmit_lastChecked (t : Str → OpenOutcome) (s : RunState) :
    (finalSubmit t s).lastChecked = s.lastChecked := by
  rw [finalSubmit]
  split
  · rfl
  · rfl

theorem finalSubmit_sound (t : Str → OpenOutcome) {s : RunState}
    (hfs : futSound t s) : futSound t (finalSubmit t s) := by
  rw [finalSubmit]
  split
  · intro f hf p hfp
    rcases List.mem_append.mp hf with hmem | hmem
    · exact hfs f hmem p hfp
    · rw [List.mem_singleton] at hmem
      subst hmem
      exact (attempt_sound t hfp).1
  · exact hfs

theorem finalSubmit_truthy {t : Str → OpenOutcome} {s : RunState} {cstar : Str}
    (H : ∀ p, t p = .success → p ≠ []) (hsucc : t cstar = .success)
    (hsn : s.found = none) (hlive : liveFor cstar s) :
    ∃ f ∈ (finalSubmit t s).futures, truthyOpt f = true := by
  rcases hlive hsn with hb | ⟨g, hg, hgt⟩
  · have hbne : s.batch ≠ [] := by
      rintro hb'
      rw [hb'] at hb
      simp at hb
    rw [finalSubmit, if_pos ⟨hbne, hsn⟩]
    exact ⟨attempt_crack_batch t s.batch,
      List.mem_append_right _ (List.mem_singleton.mpr rfl),
      attempt_truthy H hb hsucc⟩
  · rw [finalSubmit]
    split
    · exact ⟨g, List.mem_append_left _ hg, hgt⟩
    · exact ⟨g, hg, hgt⟩

theorem drainF_sound : ∀ {l : List (Option Str)} {p : Str},
    drainF l = some p → some p ∈ l ∧ p ≠ [] := by
  intro l
  induction l with
  | nil => intro p h; exact absurd h (by simp [drainF])
  | cons f rest ih =>
    intro p h
    rw [drainF] at h
    split at h
    · next htr =>
      subst h
      refine ⟨List.mem_cons_self _ _, ?_⟩
      intro hnil
      subst hnil
      simp [truthyOpt] at htr
    · exact ⟨List.mem_cons_of_mem f (ih h).1, (ih h).2⟩

theorem drainF_isSome : ∀ {l : List (Option Str)},
    (∃ f ∈ l, truthyOpt f = true) → (drainF l).isSome = true := by
  intro l
  induction l with
  | nil => intro h; simp at h
  | cons f rest ih =>
    intro ⟨g, hg, hgt⟩
    rw [drainF]
    split
    · next htr =>
      cases f with
      | none => simp [truthyOpt] at htr
      | some v => rfl
    · next htr =>
      apply ih
      rcases List.mem_cons.mp hg with rfl | hmem
      · exact absurd hgt htr
      · exact ⟨g, hmem, hgt⟩

/-- The generic success theorem for the dispatcher: if some candidate of the
generator opens the document and no successful candidate is the empty
string, `run_attack` returns a successful, non-empty password. -/
theorem run_attack_success {t : Str → OpenOutcome} {cands : List Str}
    (w bs : Nat) (resume : Option Str)
    (H : ∀ p, t p = .success → p ≠ [])
    (hex : ∃ c ∈ cands, t c = .success) :
    ∃ p, (run_attack t cands w bs resume).1 = some p ∧ t p = .success ∧ p ≠ [] := by
  obtain ⟨c, hc, hcs⟩ := hex
  obtain ⟨l1, l2, rfl⟩ := List.append_of_mem hc
  have h0fs : futSound t (initState resume) := by
    intro f hf
    simp [initState] at hf
  have h0fd : foundSound t (initState resume) := by
    intro p hp
    simp [initState] at hp
  have h1 := runLoop_sound t bs w l1 h0fs h0fd
  have h2 := runStep_sound t bs w h1.1 h1.2 c
  have h2l := @runStep_live_self t bs w
    (runLoop t bs w l1 (initState resume)) c H hcs
  have h3 := runLoop_sound t bs w l2 h2.1 h2.2
  have h3l := runLoop_live t bs w H hcs l2 h2.1 h2.2 h2l
  have hloopEq : runLoop t bs w (l1 ++ c :: l2) (initState resume) =
      runLoop t bs w l2
        (runStep t bs w (runLoop t bs w l1 (initState resume)) c) := by
    rw [runLoop, runLoop, runLoop, List.foldl_append, List.foldl_cons]
  simp only [run_attack, hloopEq]
  rcases hfd : (runLoop t bs w l2
      (runStep t bs w (runLoop t bs w l1 (initState resume)) c)).found with _ | p
  · -- nothing found during the loop: the drain finds a truthy future
    have hlv := h3l hfd
    have htr := finalSubmit_truthy H hcs hfd (fun _ => hlv)
    have hisSome := drainF_isSome htr
    rcases Option.isSome_iff_exists.mp hisSome with ⟨p, hp⟩
    have hsnd := drainF_sound hp
    have hfsF := finalSubmit_sound t h3.1
    refine ⟨p, ?_, hfsF (some p) hsnd.1 p rfl, hsnd.2⟩
    rw [finalSubmit_found, hfd]
    simpa using hp
  · -- found during the loop
    refine ⟨p, ?_, (h3.2 p hfd).1, (h3.2 p hfd).2⟩
    rw [finalSubmit_found, hfd]
    rfl

/-! ## Claim theorems -/

/-- C4: brute-force enumeration over a single segment with charset `ab` and
length range 1..2 yields exactly `a, b, aa, ab, ba, bb` in that order —
lengths ascend, and within each length the charset^length tuples appear in
lexicographic order over the charset's character order. -/
theorem C4_custom_brute_order :
    gen_custom_brute (toStr "ab") 1 2 none =
      [toStr "a", toStr "b", toStr "aa", toStr "ab", toStr "ba", toStr "bb"] := by
  decide

theorem attempt_congr {t t2 : Str → OpenOutcome}
    (h : ∀ p, t p = .success ↔ t2 p = .success) :
    ∀ ps, attempt_crack_batch t ps = attempt_crack_batch t2 ps := by
  intro ps
  induction ps with
  | nil => rfl
  | cons a rest ih =>
    rw [attempt_crack_batch, attempt_crack_batch]
    cases h1 : t a with
    | success => rw [(h a).mp h1]
    | passwordError =>
      have h2 : t2 a ≠ .success := by
        intro hs
        have := (h a).mpr hs
        rw [h1] at this
        exact absurd this (by simp)
      cases h2' : t2 a with
      | success => exact absurd h2' h2
      | passwordError => exact ih
      | otherError => exact ih
    | otherError =>
      have h2 : t2 a ≠ .success := by
        intro hs
        have := (h a).mpr hs
        rw [h1] at this
        exact absurd this (by simp)
      cases h2' : t2 a with
      | success => exact absurd h2' h2
      | passwordError => exact ih
      | otherError => exact ih

/-- C6: the worker tries the batch in order and returns the first candidate
that decrypts the document (`none` when all fail); outcomes other than
success — wrong password or any other per-candidate error — are
indistinguishable to it, so an error never aborts the rest of the batch. -/
theorem C6_worker_contract (t : Str → OpenOutcome) (ps : List Str) :
    attempt_crack_batch t ps = ps.find? (fun p => decide (t p = .success)) ∧
    (∀ t2 : Str → OpenOutcome, (∀ p, t p = .success ↔ t2 p = .success) →
      attempt_crack_batch t ps = attempt_crack_batch t2 ps) := by
  constructor
  · induction ps with
    | nil => rfl
    | cons a rest ih =>
      rw [attempt_crack_batch]
      cases h1 : t a with
      | success => simp [List.find?, h1]
      | passwordError => simp [List.find?, h1, ih]
      | otherError => simp [List.find?, h1, ih]
  · intro t2 h
    exact attempt_congr h ps

/-- C6 witness: a batch whose first candidate hits a non-password error and
whose second candidate succeeds — the error does not abort the batch, and
the result agrees with the batch under a collaborator that reports
`passwordError` instead of the error. -/
theorem C6_witness :
    attempt_crack_batch
        (fun s => if s = toStr "a" then .otherError
                  else if s = toStr "b" then .success else .passwordError)
        [toStr "a", toStr "b", toStr "c"] =
      [toStr "a", toStr "b", toStr "c"].find?
        (fun p => decide ((fun s => if s = toStr "a" then OpenOutcome.otherError
            else if s = toStr "b" then OpenOutcome.success
            else OpenOutcome.passwordError) p = .success)) ∧
    attempt_crack_batch
        (fun s => if s = toStr "a" then .otherError
                  else if s = toStr "b" then .success else .passwordError)
        [toStr "a", toStr "b", toStr "c"] =
      attempt_crack_batch (fun s => if s = toStr "b" then .success
                  else .passwordError) [toStr "a", toStr "b", toStr "c"] ∧
    attempt_crack_batch
        (fun s => if s = toStr "a" then .otherError
                  else if s = toStr "b" then .success else .passwordError)
        [toStr "a", toStr "b", toStr "c"] = some (toStr "b") := by
  have h := C6_worker_contract
    (fun s => if s = toStr "a" then .otherError
              else if s = toStr "b" then .success else .passwordError)
    [toStr "a", toStr "b", toStr "c"]
  refine ⟨h.1, ?_, by decide⟩
  apply h.2
  intro p
  by_cases ha : p = toStr "a"
  · subst ha; decide
  · by_cases hb : p = toStr "b"
    · subst hb; decide
    · simp [ha, hb]

/-- C8 counterexample: a wordlist with a blank middle line yields three
candidates — the blank line produces the empty-string candidate — whereas
the claim (one candidate per *non-empty* trimmed line) predicts two. -/
theorem C8_counterexample :
    gen_wordlist [toStr "alpha\n", toStr "\n", toStr "beta\n"] none =
      [toStr "alpha", [], toStr "beta"] ∧
    gen_wordlist [toStr "alpha\n", toStr "\n", toStr "beta\n"] none ≠
      [toStr "alpha", toStr "beta"] := by
  decide

/-- C8 as amended: the wordlist generator yields exactly one candidate per
line of the file — the line's stripped content — in file order, including
an empty candidate for every line that strips to nothing.  (Decoding is
`latin-1`, under which every byte maps to a character, so reading never
raises; with `errors='ignore'` an undecodable byte would be dropped rather
than replaced, but `latin-1` has none.) -/
theorem C8_wordlist_per_line :
    ∀ lines : List Str, gen_wordlist lines none = lines.map pstrip :=
  fun lines => gen_wordlist_none lines

/-- C9: `load_session` returns `None` for an absent file, an unparseable
file, and a parsed record without the key, and the saved cursor otherwise —
but a session file whose JSON root is not an object (e.g. the file `[]`)
raises an uncaught `TypeError` from `session_data['last_password']`: the
`except (json.JSONDecodeError, KeyError)` clause does not catch it, so the
claim's "never raises" fails on the code as written. -/
theorem C9_load_session_behavior :
    load_session none = .ok .null ∧
    load_session (some (.error ())) = .ok .null ∧
    load_session (some (.ok (.obj []))) = .ok .null ∧
    load_session (some (.ok (.obj [(lastPasswordKey, .str (toStr "pw"))]))) =
      .ok (.str (toStr "pw")) ∧
    load_session (some (.ok (.arr []))) = .error .typeError := by
  refine ⟨rfl, rfl, rfl, ?_, rfl⟩
  simp [load_session, pyGetItem, pyDictGet, lookupKey]

/-- C7 counterexample: on a query without a `{MIN-MAX}` block the generator
does not fail — it returns the empty sequence.  (`if not match: return` in
`gen_custom_query`; the `InvalidMask`-style rejection happens only in the
CLI layer of `main.py`, before the generator is iterated.) -/
theorem C7_counterexample :
    matchQuery (toStr "abc") = none ∧
    gen_custom_query (toStr "abc") false none = [] ∧
    gen_custom_query (toStr "abc") true none = [] := by
  decide

/-- C7 as amended: a block-less query makes the generator yield the empty
sequence without raising; a query with a block yields the integers
MIN..MAX ascending, each zero-padded to the digit-width of the MAX literal
iff `add_zeros`, wrapped in the literal prefix and suffix.  The suffix must
itself be block-free (the greedy regex picks the last block) and, for the
`re` dot semantics to coincide with the model, prefix and suffix are
newline-free. -/
theorem C7_custom_query_shape :
    (∀ (q : Str) (az : Bool), matchQuery q = none →
      gen_custom_query q az none = []) ∧
    (∀ (pre minD maxD suf : Str) (az : Bool),
      minD ≠ [] → (∀ c ∈ minD, c.isDigit = true) →
      maxD ≠ [] → (∀ c ∈ maxD, c.isDigit = true) →
      matchQuery suf = none → '\n' ∉ pre → '\n' ∉ suf →
      gen_custom_query (pre ++ '{' :: (minD ++ '-' :: (maxD ++ '}' :: suf))) az none =
        (List.range' (digitsToNat minD) (digitsToNat maxD + 1 - digitsToNat minD)).map
          (fun i => pre ++ (if az then padTo maxD.length (natStr i) else natStr i) ++ suf)) := by
  constructor
  · intro q az h
    exact gen_custom_query_no_block az none h
  · intro pre minD maxD suf az hm hmd hx hxd hsuf _ _
    exact gen_custom_query_canonical az (matchQuery_construct hm hmd hx hxd hsuf)

/-- C7 witness: `ID{1-3}` yields `ID1, ID2, ID3`, and `x{08-10}` with
zero-padding yields `x08, x09, x10`; a block-less query yields nothing. -/
theorem C7_witness :
    gen_custom_query (toStr "ID{1-3}") false none =
      [toStr "ID1", toStr "ID2", toStr "ID3"] ∧
    gen_custom_query (toStr "x{08-10}") true none =
      [toStr "x08", toStr "x09", toStr "x10"] ∧
    gen_custom_query (toStr "xyz") true none = [] := by
  have h1 := C7_custom_query_shape.2 (toStr "ID") (toStr "1") (toStr "3") [] false
    (by decide) (by decide) (by decide) (by decide) (by decide) (by decide) (by decide)
  have h2 := C7_custom_query_shape.2 (toStr "x") (toStr "08") (toStr "10") [] true
    (by decide) (by decide) (by decide) (by decide) (by decide) (by decide) (by decide)
  have h3 := C7_custom_query_shape.1 (toStr "xyz") true (by decide)
  refine ⟨?_, ?_, h3⟩
  · rw [show toStr "ID{1-3}" =
      toStr "ID" ++ '{' :: (toStr "1" ++ '-' :: (toStr "3" ++ '}' :: ([] : Str))) by decide]
    rw [h1]
    decide
  · rw [show toStr "x{08-10}" =
      toStr "x" ++ '{' :: (toStr "08" ++ '-' :: (toStr "10" ++ '}' :: ([] : Str))) by decide]
    rw [h2]
    decide

/-- C3: for every mask the parser accepts, the estimate is exactly the
product over segments of the sum over the segment's length range of
`|charset| ^ length`, computed arithmetically, and it equals the number of
strings the mask generator enumerates; concretely, `d{2}` estimates 100 and
enumerates exactly the 100 distinct strings `00`..`99`. -/
theorem C3_estimate_equals_enumeration :
    (∀ (mask : Str) (segs : List (Str × List Nat)), parse_mask mask = .ok segs →
      estimate_total_from_mask mask =
        some ((segs.map (fun seg => (seg.2.map (seg.1.length ^ ·)).sum)).prod) ∧
      gen_from_mask mask none = .ok (canonOf segs) ∧
      (canonOf segs).length =
        (segs.map (fun seg => (seg.2.map (seg.1.length ^ ·)).sum)).prod) ∧
    (estimate_total_from_mask (toStr "d{2}") = some 100 ∧
      gen_from_mask (toStr "d{2}") none =
        .ok ((List.range 100).map (fun i => padTo 2 (natStr i))) ∧
      ((List.range 100).map (fun i => padTo 2 (natStr i))).Nodup ∧
      ((List.range 100).map (fun i => padTo 2 (natStr i))).length = 100) := by
  constructor
  · intro mask segs hp
    have hne := parse_mask_ok_ne_nil hp
    refine ⟨?_, ?_, canonOf_length segs⟩
    · rw [estimate_total_from_mask, hp]
      simp only [if_neg hne, Option.some.injEq]
      rw [foldl_mul_prod, Nat.one_mul]
      congr 1
      apply List.map_congr_left
      intro seg _
      rw [foldl_add_sum, Nat.zero_add]
    · rw [gen_from_mask, hp]
      simp only [if_neg hne]
      rfl
  · exact ⟨by decide, by decide, by decide, by decide⟩

/-- C3 witness: the general statement applied to the concrete mask `d{1}`:
ten candidates, estimate 10. -/
theorem C3_witness :
    estimate_total_from_mask (toStr "d{1}") = some 10 ∧
    gen_from_mask (toStr "d{1}") none = .ok (canonOf [(DIGITS, List.range' 1 1)]) ∧
    (canonOf [(DIGITS, List.range' 1 1)]).length = 10 := by
  have h := C3_estimate_equals_enumeration.1 (toStr "d{1}")
    [(DIGITS, List.range' 1 1)] (by decide)
  refine ⟨?_, h.2.1, ?_⟩
  · rw [h.1]; decide
  · rw [h.2.2]; decide

/-- C10 counterexample: an empty `start_after` is falsy, so the resume loop
never engages: although `""` is not an element of the canonical
enumeration of `d{1}`, the generator yields the full sequence from the
beginning instead of the empty sequence the claim requires. -/
theorem C10_counterexample :
    ([] : Str) ∉ canonOf [(DIGITS, List.range' 1 1)] ∧
    gen_from_mask (toStr "d{1}") (some []) = gen_from_mask (toStr "d{1}") none ∧
    gen_from_mask (toStr "d{1}") none =
      .ok [toStr "0", toStr "1", toStr "2", toStr "3", toStr "4", toStr "5",
           toStr "6", toStr "7", toStr "8", toStr "9"] ∧
    gen_from_mask (toStr "d{1}") (some []) ≠ .ok [] := by
  refine ⟨by decide, by decide, by decide, ?_⟩
  intro h
  have : gen_from_mask (toStr "d{1}") (some []) ≠
      (.ok [] : Except PyErr (List Str)) := by decide
  exact this h

/-- C10 as amended: for every parseable mask and every *non-empty*
`start_after` that is not an element of the canonical enumeration, the mask
generator yields the empty sequence — it silently skips every candidate
looking for a match that never comes; an empty `start_after` is treated as
no resume value at all and yields the full sequence. -/
theorem C10_absent_cursor_empty :
    ∀ (mask : Str) (segs : List (Str × List Nat)) (x : Str),
    parse_mask mask = .ok segs → x ≠ [] → x ∉ canonOf segs →
    gen_from_mask mask (some x) = .ok [] := by
  intro mask segs x hp hx hmem
  rw [gen_from_mask, hp]
  simp only [Except.ok.injEq]
  split
  · rfl
  · rw [resumeSkip, if_neg hx]
    exact dropThrough_of_not_mem hmem

/-- C10 witness: resuming `d{1}` after the never-generated cursor `x`
yields nothing. -/
theorem C10_witness :
    gen_from_mask (toStr "d{1}") (some (toStr "x")) = .ok [] :=
  C10_absent_cursor_empty (toStr "d{1}") [(DIGITS, List.range' 1 1)] (toStr "x")
    (by decide) (by decide) (by decide)

theorem gen_custom_query_resume {q pre minD maxD suf : Str} (az : Bool) {x run : Str}
    (h : matchQuery q = some (pre, minD, maxD, suf)) (hx : x ≠ [])
    (hrun : firstDigitRun x = some run) :
    gen_custom_query q az (some x) =
      (List.range' (max (digitsToNat minD) (digitsToNat run + 1))
          (digitsToNat maxD + 1 - max (digitsToNat minD) (digitsToNat run + 1))).map
        (fun i => pre ++ (if az then padTo maxD.length (natStr i)
                          else natStr i) ++ suf) := by
  have hxe : x.isEmpty = false := by
    cases x with
    | nil => exact absurd rfl hx
    | cons a t => rfl
  cases az <;> simp [gen_custom_query, h, truthyOpt, hxe, hrun]

/-- C1 counterexample, refuting the claim as stated in two cited modes.
Wordlist: with lines `a, b, a, c` the string `a` is the third element of
the canonical sequence (index 2), so resuming after it should yield the
fourth element onward (`c`), but the generator resumes after the *first*
occurrence and yields `b, a, c`.  Custom query: for `a1{2-4}` the first
element is `a12`; resuming after it should yield `a13, a14`, but the resume
position is recovered from the first digit run of the cursor (`12`, which
includes the prefix digit), so the generator yields nothing. -/
theorem C1_counterexample :
    ((gen_wordlist [toStr "a", toStr "b", toStr "a", toStr "c"] none)[2]? =
        some (toStr "a") ∧
      gen_wordlist [toStr "a", toStr "b", toStr "a", toStr "c"]
          (some (toStr "a")) = [toStr "b", toStr "a", toStr "c"] ∧
      gen_wordlist [toStr "a", toStr "b", toStr "a", toStr "c"]
          (some (toStr "a")) ≠
        (gen_wordlist [toStr "a", toStr "b", toStr "a", toStr "c"] none).drop 3) ∧
    ((gen_custom_query (toStr "a1{2-4}") false none)[0]? = some (toStr "a12") ∧
      gen_custom_query (toStr "a1{2-4}") false (some (toStr "a12")) = [] ∧
      gen_custom_query (toStr "a1{2-4}") false (some (toStr "a12")) ≠
        (gen_custom_query (toStr "a1{2-4}") false none).drop 1) := by
  decide

/-- C1 as amended, for the two cited generators.  Wordlist: resuming after
a non-empty cursor `x` yields exactly the elements strictly after the
*first* occurrence of `x` in the canonical sequence (when all lines are
distinct this is the claimed (k+1)-th-onward slice).  Custom query: the
claimed slice behaviour holds provided the literal prefix contains no
digit and the literal suffix does not begin with one (the resume position
is parsed out of the cursor's first digit run), the suffix contains no
block, and — for the `re` dot semantics to coincide with the model —
prefix and suffix are newline-free: if `X` is the element of value `i`
(position `i - MIN` of the canonical sequence), resuming after `X` yields
exactly the canonical sequence from position `i - MIN + 1` on. -/
theorem C1_resume_exact :
    (∀ (lines : List Str) (x : Str) (l1 l2 : List Str), x ≠ [] →
      gen_wordlist lines none = l1 ++ x :: l2 → x ∉ l1 →
      gen_wordlist lines (some x) = l2) ∧
    (∀ (pre minD maxD suf : Str) (az : Bool) (i : Nat),
      minD ≠ [] → (∀ c ∈ minD, c.isDigit = true) →
      maxD ≠ [] → (∀ c ∈ maxD, c.isDigit = true) →
      matchQuery suf = none →
      (∀ c ∈ pre, c.isDigit = false) →
      (∀ c, suf.head? = some c → c.isDigit = false) →
      '\n' ∉ pre → '\n' ∉ suf →
      digitsToNat minD ≤ i → i ≤ digitsToNat maxD →
      (gen_custom_query (pre ++ '{' :: (minD ++ '-' :: (maxD ++ '}' :: suf))) az
          none)[i - digitsToNat minD]? =
        some (pre ++ (if az then padTo maxD.length (natStr i)
                      else natStr i) ++ suf) ∧
      gen_custom_query (pre ++ '{' :: (minD ++ '-' :: (maxD ++ '}' :: suf))) az
          (some (pre ++ (if az then padTo maxD.length (natStr i)
                         else natStr i) ++ suf)) =
        (gen_custom_query (pre ++ '{' :: (minD ++ '-' :: (maxD ++ '}' :: suf))) az
            none).drop (i - digitsToNat minD + 1)) := by
  constructor
  · intro lines x l1 l2 hx hc hnot
    rw [gen_wordlist_some hx, ← gen_wordlist_none, hc]
    exact dropThrough_first_occurrence hnot
  · intro pre minD maxD suf az i hm hmd hxn hxd hsuf hpre hsufHead _ _ hi1 hi2
    have hmq := @matchQuery_construct pre minD maxD suf hm hmd hxn hxd hsuf
    have hcanon := gen_custom_query_canonical az hmq
    have hnum_ne : (if az then padTo maxD.length (natStr i) else natStr i) ≠ [] := by
      cases az
      · exact natStr_ne_nil i
      · exact padTo_ne_nil (natStr_ne_nil i)
    have hnum_digits : ∀ c ∈ (if az then padTo maxD.length (natStr i)
        else natStr i), c.isDigit = true := by
      cases az
      · exact natStr_all_digits i
      · exact padTo_all_digits (natStr_all_digits i)
    have hval : digitsToNat (if az then padTo maxD.length (natStr i)
        else natStr i) = i := by
      cases az
      · exact natStr_roundtrip i
      · rw [if_pos rfl, padTo_roundtrip]
        exact natStr_roundtrip i
    have hX_ne : pre ++ (if az then padTo maxD.length (natStr i)
        else natStr i) ++ suf ≠ [] := by
      intro hnil
      rcases List.append_eq_nil.mp hnil with ⟨hp2, _⟩
      rcases List.append_eq_nil.mp hp2 with ⟨_, hn⟩
      exact hnum_ne hn
    have hrun : firstDigitRun (pre ++ (if az then padTo maxD.length (natStr i)
        else natStr i) ++ suf) =
        some (if az then padTo maxD.length (natStr i) else natStr i) := by
      exact firstDigitRun_construct hpre hnum_ne hnum_digits hsufHead
    constructor
    · rw [hcanon, List.getElem?_map,
        range'_getElem? (by omega) (digitsToNat minD)]
      have hik : digitsToNat minD + (i - digitsToNat minD) = i := by omega
      rw [hik]
      rfl
    · rw [gen_custom_query_resume az hmq hX_ne hrun, hcanon, hval]
      rw [Nat.max_eq_right (by omega)]
      rw [← List.map_drop, range'_drop]
      congr 2
      · omega
      · omega

/-- C1 witness: resuming the wordlist `u, v` after `u` yields `v`; resuming
the custom query `N{1-3}` after its second element `N2` yields exactly the
canonical sequence from the third element on. -/
theorem C1_witness :
    gen_wordlist [toStr "u\n", toStr "v\n"] (some (toStr "u")) = [toStr "v"] ∧
    (gen_custom_query (toStr "N{1-3}") false none)[1]? = some (toStr "N2") ∧
    gen_custom_query (toStr "N{1-3}") false (some (toStr "N2")) =
      (gen_custom_query (toStr "N{1-3}") false none).drop 2 := by
  have hw := C1_resume_exact.1 [toStr "u\n", toStr "v\n"] (toStr "u") [] [toStr "v"]
    (by decide) (by decide) (by decide)
  have hc := C1_resume_exact.2 (toStr "N") (toStr "1") (toStr "3") [] false 2
    (by decide) (by decide) (by decide) (by decide) (by decide) (by decide)
    (by decide) (by decide) (by decide) (by decide) (by decide)
  rw [show toStr "N{1-3}" =
    toStr "N" ++ '{' :: (toStr "1" ++ '-' :: (toStr "3" ++ '}' :: ([] : Str))) by decide]
  exact ⟨hw, hc.1, hc.2⟩

/-- C2 counterexample: when the correct password is the empty string, the
worker reports it (`attempt_crack_batch` returns `""`), but the dispatcher's
`if res:` truthiness test rejects the empty string, so `run_attack` returns
no password even though a submitted batch contained the correct one. -/
theorem C2_counterexample :
    attempt_crack_batch tryEmpty [[]] = some [] ∧
    (run_attack tryEmpty [[]] 1 1 none).1 = none := by
  decide

/-- C2 as amended: under the deterministic scheduler, whenever some pulled
candidate opens the document and no successful candidate is the empty
string (worker results are recognised only when truthy), `run_attack`
returns a successful password — never "not found".  The concrete conjunct
exhibits the early exit: with eleven candidates whose sixth is correct,
the run returns it after submitting only ten batches, and the final
candidate `z` is never part of any submitted batch. -/
theorem C2_found_stops :
    (∀ (t : Str → OpenOutcome) (cands : List Str) (w bs : Nat)
        (resume : Option Str),
      (∀ p, t p = .success → p ≠ []) →
      (∃ c ∈ cands, t c = .success) →
      ∃ p, (run_attack t cands w bs resume).1 = some p ∧ t p = .success) ∧
    ((run_attack tryB candsB 1 1 none).1 = some (toStr "b") ∧
      (run_attack tryB candsB 1 1 none).2.2.length = 10 ∧
      ∀ b ∈ (run_attack tryB candsB 1 1 none).2.2, toStr "z" ∉ b) := by
  constructor
  · intro t cands w bs resume H hex
    obtain ⟨p, h1, h2, _⟩ := run_attack_success w bs resume H hex
    exact ⟨p, h1, h2⟩
  · refine ⟨by decide, by decide, by decide⟩

/-- C2 witness: the generic statement applied to a two-candidate run whose
second candidate is the correct password `b`. -/
theorem C2_witness :
    ∃ p, (run_attack tryB [toStr "a", toStr "b"] 1 1 none).1 = some p ∧
      tryB p = .success := by
  apply C2_found_stops.1 tryB [toStr "a", toStr "b"] 1 1 none
  · intro p h
    rw [tryB] at h
    split at h
    · next heq => subst heq; decide
    · exact absurd h (by decide)
  · exact ⟨toStr "b", by decide, by decide⟩

theorem run_attack_found_ne_nil {t : Str → OpenOutcome} {cands : List Str}
    {w bs : Nat} {resume : Option Str} {p : Str}
    (h : (run_attack t cands w bs resume).1 = some p) : p ≠ [] := by
  have h0fs : futSound t (initState resume) := by
    intro f hf
    simp [initState] at hf
  have h0fd : foundSound t (initState resume) := by
    intro q hq
    simp [initState] at hq
  have hl := runLoop_sound t bs w cands h0fs h0fd
  have hproj : (run_attack t cands w bs resume).1 =
      (if (finalSubmit t (runLoop t bs w cands (initState resume))).found.isSome
       then (finalSubmit t (runLoop t bs w cands (initState resume))).found
       else drainF (finalSubmit t (runLoop t bs w cands (initState resume))).futures) :=
    rfl
  rw [hproj] at h
  split at h
  · rw [finalSubmit_found] at h
    exact (hl.2 p h).2
  · exact (drainF_sound h).2

/-- C5 counterexample: a run over the single candidate `""` that finds
nothing pulls one candidate, yet persists no checkpoint — the epilogue's
`elif last_checked_password:` is falsy for the empty string, so a prior
checkpoint survives unchanged instead of being overwritten with the last
candidate pulled. -/
theorem C5_counterexample :
    (run_attack tryNone [[]] 1 1 none).1 = none ∧
    (run_attack tryNone [[]] 1 1 none).2.1 = SessionAction.skip ∧
    sessionFileAfter (run_attack tryNone [[]] 1 1 none).2.1
      (save_session_file (toStr "old")) = save_session_file (toStr "old") := by
  refine ⟨by decide, by decide, ?_⟩
  rw [show (run_attack tryNone [[]] 1 1 none).2.1 = SessionAction.skip by decide]
  rfl

/-- C5 as amended (exhaustion path; timeout and user interrupt are outside
the model): if `run_attack` found a password the session checkpoint is
deleted; if it found none and the last candidate pulled (the last element
of the generator's output) is non-empty, that candidate is persisted,
overwriting any prior checkpoint, and a subsequent `load_session` returns
it; an empty last candidate is falsy and leaves the store untouched. -/
theorem C5_checkpoint_epilogue :
    ∀ (t : Str → OpenOutcome) (cands : List Str) (w bs : Nat)
      (resume : Option Str) (file : SessionFile),
    ((run_attack t cands w bs resume).1.isSome →
      sessionFileAfter (run_attack t cands w bs resume).2.1 file = none) ∧
    ((run_attack t cands w bs resume).1 = none →
      ∀ p : Str, cands.getLast? = some p → p ≠ [] →
      sessionFileAfter (run_attack t cands w bs resume).2.1 file =
        save_session_file p ∧
      load_session (sessionFileAfter (run_attack t cands w bs resume).2.1 file) =
        .ok (.str p)) := by
  intro t cands w bs resume file
  have hact : (run_attack t cands w bs resume).2.1 =
      sessionAct (run_attack t cands w bs resume).1
        (finalSubmit t (runLoop t bs w cands (initState resume))).lastChecked := rfl
  have hproj : (run_attack t cands w bs resume).1 =
      (if (finalSubmit t (runLoop t bs w cands (initState resume))).found.isSome
       then (finalSubmit t (runLoop t bs w cands (initState resume))).found
       else drainF (finalSubmit t (runLoop t bs w cands (initState resume))).futures) :=
    rfl
  constructor
  · intro hsome
    obtain ⟨p, hp⟩ := Option.isSome_iff_exists.mp hsome
    have hne := run_attack_found_ne_nil hp
    rw [hact, hp, sessionAct]
    rw [if_pos (show truthyOpt (some p) = true by simp [truthyOpt, hne])]
    rfl
  · intro hnone p hlast hpne
    have hnone' := hnone
    rw [hproj] at hnone'
    split at hnone'
    · next hs => exact absurd (hnone' ▸ hs) (by simp)
    · next hs =>
      have hsf := Option.not_isSome_iff_eq_none.mp hs
      have hsl : (runLoop t bs w cands (initState resume)).found = none := by
        rw [← finalSubmit_found t]
        exact hsf
      have hlc := runLoop_getLast t bs w cands (initState resume) p hsl hlast
      rw [hact, hnone, sessionAct]
      rw [if_neg (by simp [truthyOpt])]
      rw [finalSubmit_lastChecked, hlc]
      rw [if_pos (show truthyOpt (some p) = true by simp [truthyOpt, hpne])]
      constructor
      · rfl
      · simp [sessionFileAfter, load_session, save_session_file, pyGetItem,
          pyDictGet, lookupKey]

/-- C5 witness: a failing run over `a, c` saves the last pulled candidate
`c`, overwriting the prior checkpoint, and `load_session` then returns it;
the same machinery applied on the found path is exercised through the
generic first conjunct. -/
theorem C5_witness :
    (run_attack tryNone [toStr "a", toStr "c"] 1 1 none).1 = none ∧
    sessionFileAfter (run_attack tryNone [toStr "a", toStr "c"] 1 1 none).2.1
      (some (.ok .null)) = save_session_file (toStr "c") ∧
    load_session (sessionFileAfter
        (run_attack tryNone [toStr "a", toStr "c"] 1 1 none).2.1
        (some (.ok .null))) = .ok (.str (toStr "c")) ∧
    sessionFileAfter (run_attack tryB [toStr "b"] 1 1 none).2.1
      (some (.ok .null)) = none := by
  have h := (C5_checkpoint_epilogue tryNone [toStr "a", toStr "c"] 1 1 none
    (some (.ok .null))).2 (by decide) (toStr "c") (by decide) (by decide)
  have hfound := (C5_checkpoint_epilogue tryB [toStr "b"] 1 1 none
    (some (.ok .null))).1 (by decide)
  exact ⟨by decide, h.1, h.2, hfound⟩
